import Mathlib

/-!
Verification of the dual-format container log parser and verifier of
cri-tools (`pkg/validate/container.go`).

Lines are modelled as `List Char` (one `Char` per byte of the Go string;
all inputs of interest are ASCII).  Go's uncontrolled runtime panic
(index out of range) and the controlled `framework.ExpectNoError`
test-failure path are modelled as two distinct error constructors of
`ParseFailure`, so that "fails with MalformedRecord" and "panics" are
distinguishable outcomes of a total Lean function.
-/

namespace CriTools

/-- Models Go `strings.SplitN(s, sep, _)` for a single-character
separator: find the first occurrence of `sep`; `none` when absent,
otherwise the part before and the part after. -/
def splitOnceChar (sep : Char) : List Char → Option (List Char × List Char)
  | [] => none
  | c :: cs =>
    if c = sep then some ([], cs)
    else (splitOnceChar sep cs).map (fun p => (c :: p.1, p.2))

/-- Models Go `strings.SplitN(s, sep, n)` (single-character separator):
at most `n` substrings, the last one being the unsplit remainder. -/
def goSplitNChar (sep : Char) : List Char → Nat → List (List Char)
  | _, 0 => []
  | cs, 1 => [cs]
  | cs, n + 2 =>
    match splitOnceChar sep cs with
    | none => [cs]
    | some (pre, post) => pre :: goSplitNChar sep post (n + 1)

/-- Go `strings.SplitN` specialised to the single-space separator used
by `parseCRILog`. -/
def goSplitN (sep : Char) (cs : List Char) (n : Nat) : List (List Char) :=
  goSplitNChar sep cs n

/-- Models `dropCR` of Go `bufio` (used by `bufio.ScanLines`): drop one
trailing carriage return. -/
def dropCR (l : List Char) : List Char :=
  match l.getLast? with
  | some c => if c = '\r' then l.dropLast else l
  | none => l

/-- Loop of `bufio.Scanner` with the `bufio.ScanLines` split function,
as used by `parseLogLine`: tokens are the segments before each newline
(with one trailing `'\r'` dropped), and a non-empty remainder at EOF is
a final token.  `acc` holds the chars of the current token, reversed. -/
def scanLinesAux : List Char → List Char → List (List Char)
  | [], acc => if acc = [] then [] else [dropCR acc.reverse]
  | c :: rest, acc =>
    if c = '\n' then dropCR acc.reverse :: scanLinesAux rest []
    else scanLinesAux rest (c :: acc)

/-- All line tokens of a file's content, per `bufio.Scanner`/`ScanLines`. -/
def scanLines (content : List Char) : List (List Char) :=
  scanLinesAux content []

/-! ## Timestamps

Models Go `time.Parse(time.RFC3339Nano, s)` (and the RFC3339 parse done
by `time.Time.UnmarshalJSON`; when parsing, both layouts accept an
optional fractional-second part of 1 to 9 digits and a `Z` or `±hh:mm`
offset).  The parsed instant is kept as its broken-down fields. -/

structure Timestamp where
  year : Nat
  month : Nat
  day : Nat
  hour : Nat
  minute : Nat
  second : Nat
  nanos : Nat
  offMinutes : Int
  deriving DecidableEq, Repr

/-- The zero `time.Time` value: 0001-01-01T00:00:00Z. -/
def zeroTime : Timestamp := ⟨1, 1, 1, 0, 0, 0, 0, 0⟩

def digitVal (c : Char) : Nat := c.toNat - '0'.toNat

/-- Read exactly `n` ASCII digits, most significant first. -/
def readDigitsAux : Nat → List Char → Nat → Option (Nat × List Char)
  | 0, cs, acc => some (acc, cs)
  | n + 1, c :: cs, acc =>
    if c.isDigit then readDigitsAux n cs (acc * 10 + digitVal c) else none
  | _ + 1, [], _ => none

def readDigits (n : Nat) (cs : List Char) : Option (Nat × List Char) :=
  readDigitsAux n cs 0

def expectChar (c : Char) : List Char → Option (List Char)
  | d :: cs => if d = c then some cs else none
  | [] => none

def digitsToNat (ds : List Char) : Nat :=
  ds.foldl (fun acc c => acc * 10 + digitVal c) 0

def isLeapYear (y : Nat) : Bool :=
  y % 4 = 0 && (y % 100 ≠ 0 || y % 400 = 0)

def daysInMonth (y m : Nat) : Nat :=
  if m = 2 then (if isLeapYear y then 29 else 28)
  else if m = 4 ∨ m = 6 ∨ m = 9 ∨ m = 11 then 30
  else 31

/-- Optional fractional-second part: `'.'` followed by 1 to 9 digits
(Go reads at most 9 digits after the period; a 10th digit would make
the subsequent offset match fail).  Yields nanoseconds. -/
def parseFrac (cs : List Char) : Option (Nat × List Char) :=
  match cs with
  | '.' :: rest =>
    let ds := rest.takeWhile Char.isDigit
    let rem := rest.dropWhile Char.isDigit
    if ds.length = 0 ∨ 9 < ds.length then none
    else some (digitsToNat ds * 10 ^ (9 - ds.length), rem)
  | _ => some (0, cs)

/-- Timezone part of the `Z07:00` layout element, which must end the
input: `Z`, or a signed `hh:mm` offset.  Yields the offset in minutes. -/
def parseOffset : List Char → Option Int
  | ['Z'] => some 0
  | '+' :: rest => do
    let (h, r1) ← readDigits 2 rest
    let r2 ← expectChar ':' r1
    let (m, r3) ← readDigits 2 r2
    if r3 = [] ∧ h ≤ 23 ∧ m ≤ 59 then some ((h : Int) * 60 + m) else none
  | '-' :: rest => do
    let (h, r1) ← readDigits 2 rest
    let r2 ← expectChar ':' r1
    let (m, r3) ← readDigits 2 r2
    if r3 = [] ∧ h ≤ 23 ∧ m ≤ 59 then some (-((h : Int) * 60 + m)) else none
  | _ => none

/-- Everything of an RFC3339Nano timestamp after the 4-digit year. -/
def parseAfterYear (y : Nat) (r1 : List Char) : Option Timestamp := do
  let r2 ← expectChar '-' r1
  let (mo, r3) ← readDigits 2 r2
  let r4 ← expectChar '-' r3
  let (d, r5) ← readDigits 2 r4
  let r6 ← expectChar 'T' r5
  let (h, r7) ← readDigits 2 r6
  let r8 ← expectChar ':' r7
  let (mi, r9) ← readDigits 2 r8
  let r10 ← expectChar ':' r9
  let (s, r11) ← readDigits 2 r10
  let (ns, r12) ← parseFrac r11
  let off ← parseOffset r12
  if 1 ≤ mo ∧ mo ≤ 12 ∧ 1 ≤ d ∧ d ≤ daysInMonth y mo ∧ h ≤ 23 ∧ mi ≤ 59 ∧ s ≤ 59
  then some ⟨y, mo, d, h, mi, s, ns, off⟩
  else none

/-- Go `time.Parse(time.RFC3339Nano, ·)`, total with `Option`. -/
def parseRFC3339Nano (cs : List Char) : Option Timestamp :=
  match readDigits 4 cs with
  | none => none
  | some (y, r1) => parseAfterYear y r1

/-! ## Core data model -/

/-- `type streamType string` — a Go string typedef; the two declared
constants are `stdoutType` and `stderrType`, but the type itself admits
any string (casting performs no validation). -/
abbrev streamType := List Char

def stdoutType : streamType := "stdout".data

def stderrType : streamType := "stderr".data

/-- `logMessage` — the internal log record: timestamp, stream, log text. -/
structure logMessage where
  timestamp : Timestamp
  stream : streamType
  log : List Char
  deriving DecidableEq, Repr

/-- Outcome of a failed decode.  `malformedRecord` models the
controlled `framework.ExpectNoError` test failure raised on a non-nil
error; `indexOutOfRange` models an uncontrolled Go runtime panic from
indexing a slice out of bounds. -/
inductive ParseFailure where
  | malformedRecord
  | indexOutOfRange
  deriving DecidableEq, Repr

instance {ε α : Type} [DecidableEq ε] [DecidableEq α] : DecidableEq (Except ε α) := by
  intro a b
  cases a <;> cases b
  case error.error e1 e2 =>
    exact match decEq e1 e2 with
    | isTrue h => isTrue (by rw [h])
    | isFalse h => isFalse (fun hc => h (Except.error.inj hc))
  case error.ok e1 a2 => exact isFalse (fun hc => Except.noConfusion hc)
  case ok.error a1 e2 => exact isFalse (fun hc => Except.noConfusion hc)
  case ok.ok a1 a2 =>
    exact match decEq a1 a2 with
    | isTrue h => isTrue (by rw [h])
    | isFalse h => isFalse (fun hc => h (Except.ok.inj hc))

/-- Go slice indexing `xs[i]`: out of bounds is a runtime panic. -/
def goIndex (xs : List (List Char)) (i : Nat) : Except ParseFailure (List Char) :=
  match xs.get? i with
  | some x => .ok x
  | none => .error .indexOutOfRange

/-- `parseCRILog` — parses logs in CRI log format
(`TIMESTAMP STREAM TAG CONTENT`).  Direct translation of the source:
`logMessage := strings.SplitN(log, " ", 4)`; then the guard
`if len(log) < 4` (note: the length of the *string*, as written in the
source, not of the segment slice); then `time.Parse(time.RFC3339Nano,
logMessage[0])` with `ExpectNoError` on error; then `logMessage[1]` as
the stream; `logMessage[3] + "\n"` as the content (tag skipped). -/
def parseCRILog (log : List Char) : Except ParseFailure logMessage :=
  let parts := goSplitN ' ' log 4
  if log.length < 4 then .error .malformedRecord
  else
    match goIndex parts 0 with
    | .error e => .error e
    | .ok t0 =>
      match parseRFC3339Nano t0 with
      | none => .error .malformedRecord
      | some ts =>
        match goIndex parts 1 with
        | .error e => .error e
        | .ok st =>
          match goIndex parts 3 with
          | .error e => .error e
          | .ok content => .ok ⟨ts, st, content ++ ['\n']⟩

/-! ## JSON

Models the part of Go `encoding/json` exercised by
`json.Unmarshal(log, &l)` with `l : jsonlog.JSONLog`: a generic JSON
value parser, then field-wise decoding into the struct (unknown fields
ignored, missing fields left at their zero values, key matching
case-insensitive, `null` leaving a field untouched, any type mismatch
an error).  Fuel-based recursion keeps every function structurally
recursive and kernel-evaluable; the initial fuel `length + 1` is always
sufficient because every recursive call consumes at least one char. -/

inductive JValue where
  | jnull
  | jbool (b : Bool)
  | jnum
  | jstr (s : List Char)
  | jarr (elems : List JValue)
  | jobj (members : List (List Char × JValue))

def jsonWS (c : Char) : Bool :=
  c = ' ' ∨ c = '\t' ∨ c = '\n' ∨ c = '\r'

def skipWS (cs : List Char) : List Char := cs.dropWhile jsonWS

def hexVal (c : Char) : Option Nat :=
  if c.isDigit then some (digitVal c)
  else if 'a' ≤ c ∧ c ≤ 'f' then some (c.toNat - 'a'.toNat + 10)
  else if 'A' ≤ c ∧ c ≤ 'F' then some (c.toNat - 'A'.toNat + 10)
  else none

def parseHex4 : List Char → Option (Nat × List Char)
  | a :: b :: c :: d :: rest => do
    let va ← hexVal a
    let vb ← hexVal b
    let vc ← hexVal c
    let vd ← hexVal d
    some (va * 4096 + vb * 256 + vc * 16 + vd, rest)
  | _ => none

/-- JSON string body after the opening quote: returns the decoded
content and the input after the closing quote.  Escapes are decoded as
by Go: the eight simple escapes, `\uXXXX` with surrogate pairs combined
and unpaired surrogates replaced by U+FFFD; a raw control character is
an error. -/
def parseJStr : Nat → List Char → List Char → Option (List Char × List Char)
  | 0, _, _ => none
  | _ + 1, [], _ => none
  | fuel + 1, c :: cs, acc =>
    if c = '"' then some (acc.reverse, cs)
    else if c = '\\' then
      match cs with
      | [] => none
      | e :: cs2 =>
        if e = '"' ∨ e = '\\' ∨ e = '/' then parseJStr fuel cs2 (e :: acc)
        else if e = 'b' then parseJStr fuel cs2 ('\x08' :: acc)
        else if e = 'f' then parseJStr fuel cs2 ('\x0c' :: acc)
        else if e = 'n' then parseJStr fuel cs2 ('\n' :: acc)
        else if e = 'r' then parseJStr fuel cs2 ('\r' :: acc)
        else if e = 't' then parseJStr fuel cs2 ('\t' :: acc)
        else if e = 'u' then
          match parseHex4 cs2 with
          | none => none
          | some (v, cs3) =>
            if v < 0xD800 ∨ 0xE000 ≤ v then
              parseJStr fuel cs3 (Char.ofNat v :: acc)
            else if v < 0xDC00 then
              match cs3 with
              | '\\' :: 'u' :: cs4 =>
                match parseHex4 cs4 with
                | some (w, cs5) =>
                  if 0xDC00 ≤ w ∧ w < 0xE000 then
                    parseJStr fuel cs5
                      (Char.ofNat (0x10000 + (v - 0xD800) * 0x400 + (w - 0xDC00)) :: acc)
                  else parseJStr fuel cs3 ('\ufffd' :: acc)
                | none => parseJStr fuel cs3 ('\ufffd' :: acc)
              | _ => parseJStr fuel cs3 ('\ufffd' :: acc)
            else parseJStr fuel cs3 ('\ufffd' :: acc)
        else none
    else if c.toNat < 0x20 then none
    else parseJStr fuel cs (c :: acc)

/-- Fractional part of a JSON number. -/
def parseNumFrac : List Char → Option (List Char)
  | '.' :: r =>
    if (r.takeWhile Char.isDigit).length = 0 then none
    else some (r.dropWhile Char.isDigit)
  | r => some r

/-- Exponent part of a JSON number. -/
def parseNumExp : List Char → Option (List Char)
  | [] => some []
  | c :: r =>
    if c = 'e' ∨ c = 'E' then
      let r1 := match r with
                | s :: r2 => if s = '+' ∨ s = '-' then r2 else s :: r2
                | [] => []
      if (r1.takeWhile Char.isDigit).length = 0 then none
      else some (r1.dropWhile Char.isDigit)
    else some (c :: r)

/-- JSON number syntax (`-? int frac? exp?`); the numeric value is
irrelevant to `JSONLog`, so only syntax is checked. -/
def parseJNum (cs : List Char) : Option (JValue × List Char) :=
  let afterSign := match cs with
                   | '-' :: r => r
                   | r => r
  match afterSign with
  | [] => none
  | '0' :: r1 => do
    let r2 ← parseNumFrac r1
    let r3 ← parseNumExp r2
    some (.jnum, r3)
  | c :: r1 =>
    if c.isDigit then do
      let r2 ← parseNumFrac (r1.dropWhile Char.isDigit)
      let r3 ← parseNumExp r2
      some (.jnum, r3)
    else none

/-- Parsing state: a value, an object's members (accumulated so far),
or an array's elements (accumulated so far). -/
inductive JMode where
  | value
  | members (acc : List (List Char × JValue))
  | elems (acc : List JValue)

/-- Recursive descent over JSON, positioned at a value's (or key's)
first non-whitespace char; structurally recursive on fuel so that it
evaluates in the kernel. -/
def parseJ : Nat → JMode → List Char → Option (JValue × List Char)
  | 0, _, _ => none
  | fuel + 1, .value, cs =>
    (match cs with
     | [] => none
     | '{' :: rest =>
       (match skipWS rest with
        | '}' :: r2 => some (.jobj [], r2)
        | r => parseJ fuel (.members []) r)
     | '[' :: rest =>
       (match skipWS rest with
        | ']' :: r2 => some (.jarr [], r2)
        | r => parseJ fuel (.elems []) r)
     | '"' :: rest => (parseJStr fuel rest []).map (fun p => (.jstr p.1, p.2))
     | 't' :: rest =>
       if rest.take 3 = ['r', 'u', 'e'] then some (.jbool true, rest.drop 3) else none
     | 'f' :: rest =>
       if rest.take 4 = ['a', 'l', 's', 'e'] then some (.jbool false, rest.drop 4) else none
     | 'n' :: rest =>
       if rest.take 3 = ['u', 'l', 'l'] then some (.jnull, rest.drop 3) else none
     | c :: rest =>
       if c = '-' ∨ c.isDigit then parseJNum (c :: rest) else none)
  | fuel + 1, .members acc, cs =>
    (match cs with
     | '"' :: rest => do
       let (key, r1) ← parseJStr fuel rest []
       let r2 ← expectChar ':' (skipWS r1)
       let (v, r3) ← parseJ fuel .value (skipWS r2)
       match skipWS r3 with
       | ',' :: r5 => parseJ fuel (.members (acc ++ [(key, v)])) (skipWS r5)
       | '}' :: r5 => some (.jobj (acc ++ [(key, v)]), r5)
       | _ => none
     | _ => none)
  | fuel + 1, .elems acc, cs => do
    let (v, r1) ← parseJ fuel .value cs
    match skipWS r1 with
    | ',' :: r2 => parseJ fuel (.elems (acc ++ [v])) (skipWS r2)
    | ']' :: r2 => some (.jarr (acc ++ [v]), r2)
    | _ => none

/-- Generic JSON value, positioned at its first (non-whitespace) char. -/
def parseJValue (fuel : Nat) (cs : List Char) : Option (JValue × List Char) :=
  parseJ fuel .value cs


/-- Top-level JSON parse as by `json.Unmarshal`: optional leading and
trailing whitespace, exactly one value. -/
def jsonParseTop (cs : List Char) : Option JValue :=
  let s := skipWS cs
  match parseJValue (s.length + 1) s with
  | some (v, rest) => if skipWS rest = [] then some v else none
  | none => none

/-! ### Unmarshalling into `jsonlog.JSONLog` -/

/-- `jsonlog.JSONLog` of the vendored docker package:
`Log string; Stream string; Created time.Time; Attrs map[string]string`. -/
structure JSONLog where
  Log : List Char
  Stream : List Char
  Created : Timestamp
  Attrs : List (List Char × List Char)
  deriving DecidableEq, Repr

def emptyJSONLog : JSONLog := ⟨[], [], zeroTime, []⟩

def klog : List Char := "log".data

def kstream : List Char := "stream".data

def ktime : List Char := "time".data

def kattrs : List Char := "attrs".data

/-- Go struct-field matching for `json.Unmarshal`: case-insensitive
comparison of the incoming key against the field's json tag. -/
def keyMatches (target k : List Char) : Bool :=
  k.map Char.toLower = target

/-- Unmarshal a JSON object into `map[string]string`. -/
def parseAttrs : List (List Char × JValue) → Option (List (List Char × List Char))
  | [] => some []
  | (k, .jstr s) :: rest => (parseAttrs rest).map (fun l => (k, s) :: l)
  | _ => none

/-- Apply one JSON object member to the struct being decoded; `none`
models an `encoding/json` unmarshalling error. -/
def applyMember (l : JSONLog) (k : List Char) (v : JValue) : Option JSONLog :=
  if keyMatches klog k then
    match v with
    | .jstr s => some { l with Log := s }
    | .jnull => some l
    | _ => none
  else if keyMatches kstream k then
    match v with
    | .jstr s => some { l with Stream := s }
    | .jnull => some l
    | _ => none
  else if keyMatches ktime k then
    match v with
    | .jstr s =>
      match parseRFC3339Nano s with
      | some ts => some { l with Created := ts }
      | none => none
    | .jnull => some l
    | _ => none
  else if keyMatches kattrs k then
    match v with
    | .jobj ms =>
      match parseAttrs ms with
      | some attrs => some { l with Attrs := attrs }
      | none => none
    | .jnull => some l
    | _ => none
  else some l

def foldMembers : JSONLog → List (List Char × JValue) → Option JSONLog
  | l, [] => some l
  | l, (k, v) :: rest =>
    match applyMember l k v with
    | some l2 => foldMembers l2 rest
    | none => none

/-- `json.Unmarshal(cs, &l)` for `l : JSONLog`: the top-level value must
be an object (decoded member by member) or `null` (leaving the zero
value); anything else is an error. -/
def jsonUnmarshalJSONLog (cs : List Char) : Option JSONLog :=
  match jsonParseTop cs with
  | some .jnull => some emptyJSONLog
  | some (.jobj ms) => foldMembers emptyJSONLog ms
  | _ => none

/-- `parseDockerJSONLog` — parses logs in Docker JSON log format:
unmarshal the line into a `JSONLog` (`ExpectNoError` on error), then
copy `Created`, `Stream` and `Log` into the record. -/
def parseDockerJSONLog (log : List Char) : Except ParseFailure logMessage :=
  match jsonUnmarshalJSONLog log with
  | none => .error .malformedRecord
  | some l => .ok ⟨l.Created, l.Stream, l.Log⟩

/-! ## Per-line dispatch and the file-level verifier -/

/-- Loop body of `parseLogLine`: `strings.HasPrefix(line, "{")` selects
the Docker JSON decoder, everything else goes to the CRI decoder. -/
def decodeLogLine (line : List Char) : Except ParseFailure logMessage :=
  if List.isPrefixOf ['{'] line then parseDockerJSONLog line
  else parseCRILog line

/-- Scan loop of `parseLogLine`: decode each line in order, appending
each record to the accumulated slice (`msgLog = append(msgLog, msg)`);
a decode failure aborts the whole scan. -/
def parseLogLinesLoop : List (List Char) → List logMessage → Except ParseFailure (List logMessage)
  | [], acc => .ok acc
  | line :: rest, acc =>
    match decodeLogLine line with
    | .ok msg => parseLogLinesLoop rest (acc ++ [msg])
    | .error e => .error e

def parseLogLines (lines : List (List Char)) : Except ParseFailure (List logMessage) :=
  parseLogLinesLoop lines []

/-- `parseLogLine` — reads the whole log file (modelled as its content)
line by line via `bufio.Scanner`/`ScanLines` and decodes every line. -/
def parseLogLine (content : List Char) : Except ParseFailure (List logMessage) :=
  parseLogLines (scanLines content)

/-- Scan loop of `verifyLogContents`: `found` becomes true on the first
record whose `log` and `stream` both equal the expected values. -/
def verifyLogContents : List logMessage → List Char → streamType → Bool
  | [], _, _ => false
  | m :: rest, log, stream =>
    if m.log = log ∧ m.stream = stream then true
    else verifyLogContents rest log stream

/-! ## Polling

Modelled from the spec: `pollUntil(predicate, interval, timeout)`
(gomega's `Eventually`/`Consistently`, which are not part of this
repository's sources) re-invokes a zero-argument probe at a fixed
interval until its result satisfies the predicate or the cumulative
elapsed time exceeds the timeout; on timeout it reports the last
observed value.  Time is discrete: the probe is a function of the
elapsed time at which it is invoked, and `elapsed` counts the total
time slept so far (so a result with `elapsed = 0` returned without any
sleep). -/

inductive PollResult (α : Type) where
  | ok (val : α) (elapsed : Nat)
  | timeoutErr (lastSeen : α) (elapsed : Nat)
  deriving DecidableEq, Repr

/-- One probe per iteration: succeed as soon as the predicate holds,
give up at the first probe at or past the timeout, otherwise sleep
`interval` and retry.  `fuel` bounds the iteration count; `pollUntil`
supplies enough fuel that the `fuel = 0` fallback is unreachable. -/
def pollLoop {α : Type} (probe : Nat → α) (pred : α → Bool) (interval timeout : Nat) :
    Nat → Nat → PollResult α
  | 0, elapsed =>
    let v := probe elapsed
    if pred v then .ok v elapsed else .timeoutErr v elapsed
  | fuel + 1, elapsed =>
    let v := probe elapsed
    if pred v then .ok v elapsed
    else if timeout ≤ elapsed then .timeoutErr v elapsed
    else pollLoop probe pred interval timeout fuel (elapsed + interval)

/-- Modelled from the spec: `pollUntil(predicate, interval, timeout)`. -/
def pollUntil {α : Type} (probe : Nat → α) (pred : α → Bool) (interval timeout : Nat) :
    PollResult α :=
  pollLoop probe pred interval timeout (timeout / interval + 1) 0

/-- The elapsed time at which a never-satisfied poll gives up: the
first multiple of `interval` that is at least `timeout`. -/
def stopElapsed (interval timeout : Nat) : Nat :=
  ((timeout + interval - 1) / interval) * interval

/-! ## Spec-side definitions

These follow the specification's words, for comparison against the
definitions translated from the source. -/

/-- Spec side (claim C2): the first non-space character of a line. -/
def firstNonSpaceChar (cs : List Char) : Option Char :=
  (cs.dropWhile (fun c => c = ' ')).head?

/-- The last member of a JSON object whose key matches `target` (the
occurrence that wins when a struct is decoded member by member). -/
def lookupLast (target : List Char) : List (List Char × JValue) → Option JValue
  | [] => none
  | (k, v) :: rest =>
    match lookupLast target rest with
    | some v2 => some v2
    | none => if keyMatches target k then some v else none

/-- Spec side (claim C6): the three named fields of an encoding-A line —
the log content, stream name and creation-time strings of the JSON
object, `none` when the line is not such an object. -/
def jsonFields (cs : List Char) : Option (List Char × List Char × List Char) :=
  match jsonParseTop cs with
  | some (.jobj ms) =>
    match lookupLast klog ms, lookupLast kstream ms, lookupLast ktime ms with
    | some (.jstr lg), some (.jstr st), some (.jstr tm) => some (lg, st, tm)
    | _, _, _ => none
  | _ => none

/-- Spec side (claim C5): the line parses as an object carrying the
three named fields — a log content string, a stream name string and a
parseable creation timestamp string. -/
def threeFieldObjectShape (cs : List Char) : Bool :=
  match jsonFields cs with
  | some (_, _, tm) => (parseRFC3339Nano tm).isSome
  | none => false

def isStrOrNull (v : JValue) : Bool :=
  match v with
  | .jstr _ => true
  | .jnull => true
  | _ => false

/-- A JSON object member the `JSONLog` decoder accepts: the fields it
knows must carry values of the right shape, anything else is ignored. -/
def wellTypedMember (kv : List Char × JValue) : Bool :=
  if keyMatches klog kv.1 then isStrOrNull kv.2
  else if keyMatches kstream kv.1 then isStrOrNull kv.2
  else if keyMatches ktime kv.1 then
    match kv.2 with
    | .jstr s => (parseRFC3339Nano s).isSome
    | .jnull => true
    | _ => false
  else if keyMatches kattrs kv.1 then
    match kv.2 with
    | .jobj ms => (parseAttrs ms).isSome
    | .jnull => true
    | _ => false
  else true

/-! ## Concrete example inputs (used by witnesses and counterexamples) -/

/-- A Docker-format log line:
`{"log":"hello World\n","stream":"stdout","time":"2016-10-20T18:39:20.57606443Z"}`. -/
def exLineA : List Char :=
  '{' :: "\"log\":\"hello World\\n\",\"stream\":\"stdout\",\"time\":\"2016-10-20T18:39:20.57606443Z\"".data
    ++ ['}']

/-- The members of `exLineA` as parsed JSON. -/
def exMembersA : List (List Char × JValue) :=
  [("log".data, .jstr ("hello World\n".data)),
   ("stream".data, .jstr ("stdout".data)),
   ("time".data, .jstr ("2016-10-20T18:39:20.57606443Z".data))]

/-- The creation time of `exLineA`. -/
def tsA : Timestamp := ⟨2016, 10, 20, 18, 39, 20, 576064430, 0⟩

/-- A CRI-format log line. -/
def exLineB : List Char := "2016-10-06T00:17:09.669794202Z stdout F hello world".data

/-- The timestamp of `exLineB`. -/
def tsB : Timestamp := ⟨2016, 10, 6, 0, 17, 9, 669794202, 0⟩

/-- A Docker-format line whose `log`, `stream` and `time` fields are all
present and well formed but whose `attrs` member is a number:
`{"log":"x","stream":"stdout","time":"2016-10-20T18:39:20.57606443Z","attrs":5}`. -/
def exLineAttrsBad : List Char :=
  '{' :: "\"log\":\"x\",\"stream\":\"stdout\",\"time\":\"2016-10-20T18:39:20.57606443Z\",\"attrs\":5".data
    ++ ['}']

/-- A two-line log file (one Docker line, one CRI line). -/
def exLines : List (List Char) := [exLineA, exLineB]

/-- The record decoded from `exLineA`. -/
def exMsgA : logMessage := ⟨tsA, "stdout".data, "hello World\n".data⟩

/-- The record decoded from `exLineB`. -/
def exMsgB : logMessage := ⟨tsB, "stdout".data, "hello world\n".data⟩

/-! ## Lemmas -/

theorem readDigitsAux_length (n : Nat) :
    ∀ (cs : List Char) (acc v : Nat) (rest : List Char),
      readDigitsAux n cs acc = some (v, rest) → cs.length = n + rest.length := by
  induction n with
  | zero =>
    intro cs acc v rest h
    simp [readDigitsAux] at h
    simp [h.2]
  | succ n ih =>
    intro cs acc v rest h
    cases cs with
    | nil => simp [readDigitsAux] at h
    | cons c cs2 =>
      simp only [readDigitsAux] at h
      by_cases hd : c.isDigit
      · simp [hd] at h
        have := ih cs2 (acc * 10 + digitVal c) v rest h
        simp [List.length_cons, this]
        omega
      · simp [hd] at h

theorem parseRFC3339Nano_length (cs : List Char) (ts : Timestamp)
    (h : parseRFC3339Nano cs = some ts) : 4 ≤ cs.length := by
  unfold parseRFC3339Nano at h
  cases h4 : readDigits 4 cs with
  | none => rw [h4] at h; exact absurd h (by simp)
  | some p =>
    have := readDigitsAux_length 4 cs 0 p.1 p.2 (by simpa [readDigits] using h4)
    omega

theorem splitOnceChar_append (sep : Char) (pre post : List Char) (h : sep ∉ pre) :
    splitOnceChar sep (pre ++ sep :: post) = some (pre, post) := by
  induction pre with
  | nil => simp [splitOnceChar]
  | cons c pre2 ih =>
    have hc : ¬ c = sep := fun hcs => h (by simp [hcs])
    have hp : sep ∉ pre2 := fun hm => h (by simp [hm])
    simp [splitOnceChar, hc, ih hp]

theorem goSplitN_four (t s g c : List Char)
    (ht : ' ' ∉ t) (hs : ' ' ∉ s) (hg : ' ' ∉ g) :
    goSplitN ' ' (t ++ ' ' :: (s ++ ' ' :: (g ++ ' ' :: c))) 4 = [t, s, g, c] := by
  show goSplitNChar ' ' (t ++ ' ' :: (s ++ ' ' :: (g ++ ' ' :: c))) (2 + 2) = [t, s, g, c]
  rw [goSplitNChar, splitOnceChar_append ' ' t _ ht]
  show t :: goSplitNChar ' ' (s ++ ' ' :: (g ++ ' ' :: c)) (1 + 2) = [t, s, g, c]
  rw [goSplitNChar, splitOnceChar_append ' ' s _ hs]
  show t :: s :: goSplitNChar ' ' (g ++ ' ' :: c) (0 + 2) = [t, s, g, c]
  rw [goSplitNChar, splitOnceChar_append ' ' g _ hg]
  rfl

/-- Behaviour of `parseCRILog` on a line with at least four
space-separated segments and a parseable timestamp. -/
theorem parseCRILog_decomp (t s g c : List Char) (ts : Timestamp)
    (ht : ' ' ∉ t) (hs : ' ' ∉ s) (hg : ' ' ∉ g)
    (hts : parseRFC3339Nano t = some ts) :
    parseCRILog (t ++ ' ' :: (s ++ ' ' :: (g ++ ' ' :: c))) = .ok ⟨ts, s, c ++ ['\n']⟩ := by
  have hlen : 4 ≤ t.length := parseRFC3339Nano_length t ts hts
  have hlong : ¬ (t ++ ' ' :: (s ++ ' ' :: (g ++ ' ' :: c))).length < 4 := by
    simp [List.length_append]
    omega
  unfold parseCRILog
  rw [goSplitN_four t s g c ht hs hg, if_neg hlong]
  simp [goIndex, hts]

theorem dropCR_eq_self (l : List Char) (h : '\r' ∉ l) : dropCR l = l := by
  unfold dropCR
  cases hl : l.getLast? with
  | none => rfl
  | some c =>
    obtain ⟨hne, heq⟩ := List.mem_getLast?_eq_getLast (Option.mem_def.mpr hl)
    have hmem : c ∈ l := heq ▸ List.getLast_mem hne
    have : ¬ c = '\r' := fun hc => h (hc ▸ hmem)
    simp [this]

theorem scanLinesAux_noNewline (cs : List Char) (h : '\n' ∉ cs) :
    ∀ acc, scanLinesAux cs acc =
      if acc.reverse ++ cs = [] then [] else [dropCR (acc.reverse ++ cs)] := by
  induction cs with
  | nil =>
    intro acc
    simp only [scanLinesAux, List.append_nil]
    by_cases ha : acc = []
    · simp [ha]
    · have : acc.reverse ≠ [] := by simpa using ha
      simp [ha, this]
  | cons c rest ih =>
    intro acc
    have hc : ¬ c = '\n' := fun hcs => h (by simp [hcs])
    have hr : '\n' ∉ rest := fun hm => h (by simp [hm])
    simp only [scanLinesAux, if_neg hc]
    rw [ih hr (c :: acc)]
    have hne1 : (c :: acc).reverse ++ rest ≠ [] := by simp
    have hne2 : acc.reverse ++ c :: rest ≠ [] := by simp
    rw [if_neg hne1, if_neg hne2]
    simp

theorem scanLinesAux_newline (p : List Char) (hn : '\n' ∉ p) :
    ∀ rest acc, scanLinesAux (p ++ '\n' :: rest) acc =
      dropCR (acc.reverse ++ p) :: scanLinesAux rest [] := by
  induction p with
  | nil => intro rest acc; simp [scanLinesAux]
  | cons c p2 ih =>
    intro rest acc
    have hc : ¬ c = '\n' := fun hcs => hn (by simp [hcs])
    have hp : '\n' ∉ p2 := fun hm => hn (by simp [hm])
    simp only [List.cons_append, scanLinesAux, if_neg hc, List.append_eq]
    rw [ih hp rest (c :: acc)]
    simp

theorem scanLines_single (l : List Char) (hne : l ≠ []) (hn : '\n' ∉ l) (hr : '\r' ∉ l) :
    scanLines l = [l] := by
  unfold scanLines
  rw [scanLinesAux_noNewline l hn []]
  simp [hne, dropCR_eq_self l hr]

theorem scanLines_cons_line (p rest : List Char) (hn : '\n' ∉ p) (hr : '\r' ∉ p) :
    scanLines (p ++ '\n' :: rest) = p :: scanLines rest := by
  unfold scanLines
  rw [scanLinesAux_newline p hn rest []]
  simp [dropCR_eq_self p hr]

theorem parseLogLinesLoop_acc (lines : List (List Char)) :
    ∀ acc, parseLogLinesLoop lines acc =
      (parseLogLines lines).map (fun ms => acc ++ ms) := by
  induction lines with
  | nil => intro acc; simp [parseLogLinesLoop, parseLogLines, Except.map]
  | cons line rest ih =>
    intro acc
    show parseLogLinesLoop (line :: rest) acc = _
    unfold parseLogLines
    cases hd : decodeLogLine line with
    | error e => simp [parseLogLinesLoop, hd, Except.map]
    | ok m =>
      simp only [parseLogLinesLoop, hd, List.nil_append]
      rw [ih (acc ++ [m]), ih [m]]
      cases hr : parseLogLines rest with
      | error e => simp [Except.map]
      | ok ms => simp [Except.map]

theorem parseLogLines_spec :
    ∀ (lines : List (List Char)) (msgs : List logMessage),
      parseLogLines lines = .ok msgs →
      msgs.length = lines.length ∧
      ∀ i (h1 : i < lines.length) (h2 : i < msgs.length),
        decodeLogLine (lines.get ⟨i, h1⟩) = .ok (msgs.get ⟨i, h2⟩) := by
  intro lines
  induction lines with
  | nil =>
    intro msgs h
    have : msgs = [] := by
      simpa [parseLogLines, parseLogLinesLoop] using h.symm
    subst this
    exact ⟨rfl, by intro i h1 _; exact absurd h1 (by simp)⟩
  | cons line rest ih =>
    intro msgs h
    unfold parseLogLines at h
    cases hd : decodeLogLine line with
    | error e => simp [parseLogLinesLoop, hd] at h
    | ok m =>
      simp only [parseLogLinesLoop, hd, List.nil_append] at h
      rw [parseLogLinesLoop_acc rest [m]] at h
      cases hr : parseLogLines rest with
      | error e => rw [hr] at h; exact absurd h (by simp [Except.map])
      | ok ms =>
        rw [hr] at h
        simp only [Except.map, Except.ok.injEq] at h
        obtain ⟨hlen, hidx⟩ := ih ms hr
        subst h
        refine ⟨by simp [hlen], ?_⟩
        intro i h1 h2
        cases i with
        | zero => simpa using hd
        | succ j =>
          have hj1 : j < rest.length := by simpa using h1
          have hj2 : j < ms.length := by simpa using h2
          simpa using hidx j hj1 hj2

theorem verifyLogContents_iff (msgs : List logMessage) (log : List Char) (stream : streamType) :
    verifyLogContents msgs log stream = true ↔
      ∃ m ∈ msgs, m.log = log ∧ m.stream = stream := by
  induction msgs with
  | nil => simp [verifyLogContents]
  | cons m rest ih =>
    by_cases hm : m.log = log ∧ m.stream = stream
    · simp [verifyLogContents, hm]
    · simp only [verifyLogContents, if_neg hm, ih]
      constructor
      · intro ⟨m2, hmem, hprop⟩
        exact ⟨m2, List.mem_cons_of_mem m hmem, hprop⟩
      · intro ⟨m2, hmem, hprop⟩
        rcases List.mem_cons.mp hmem with heq | hmem2
        · exact absurd (heq ▸ hprop) hm
        · exact ⟨m2, hmem2, hprop⟩

theorem stopElapsed_eq (interval timeout k : Nat) (hi : 0 < interval)
    (h1 : timeout ≤ k * interval) (h2 : k * interval < timeout + interval) :
    k * interval = stopElapsed interval timeout := by
  have hlo : k * interval ≤ timeout + interval - 1 := by omega
  have hhi : timeout + interval - 1 < (k + 1) * interval := by
    rw [Nat.succ_mul]
    omega
  unfold stopElapsed
  rw [Nat.div_eq_of_lt_le hlo hhi]

theorem stopElapsed_bounds (interval timeout : Nat) (hi : 0 < interval) :
    timeout ≤ stopElapsed interval timeout ∧
    stopElapsed interval timeout ≤ timeout + interval := by
  have hd := Nat.div_add_mod (timeout + interval - 1) interval
  have hm := Nat.mod_lt (timeout + interval - 1) hi
  unfold stopElapsed
  rw [Nat.mul_comm]
  omega

theorem pollLoop_never {α : Type} (probe : Nat → α) (pred : α → Bool)
    (interval timeout : Nat) (hi : 0 < interval)
    (hfail : ∀ t, pred (probe t) = false) :
    ∀ fuel k, k * interval < timeout + interval →
      timeout ≤ k * interval + fuel * interval →
      pollLoop probe pred interval timeout fuel (k * interval) =
        .timeoutErr (probe (stopElapsed interval timeout)) (stopElapsed interval timeout) := by
  intro fuel
  induction fuel with
  | zero =>
    intro k h2 hfuel
    have h1 : timeout ≤ k * interval := by simpa using hfuel
    rw [stopElapsed_eq interval timeout k hi h1 h2]
    simp [pollLoop, hfail]
  | succ fuel ih =>
    intro k h2 hfuel
    rw [pollLoop]
    simp only [hfail, Bool.false_eq_true, if_false]
    by_cases h1 : timeout ≤ k * interval
    · rw [stopElapsed_eq interval timeout k hi h1 h2, if_pos]
      rw [← stopElapsed_eq interval timeout k hi h1 h2]
      exact h1
    · rw [if_neg h1]
      have hk1 : k * interval + interval = (k + 1) * interval := (Nat.succ_mul k interval).symm
      rw [hk1]
      apply ih (k + 1)
      · rw [Nat.succ_mul]
        omega
      · rw [Nat.succ_mul] at hfuel ⊢
        omega

theorem pollUntil_first_probe {α : Type} (probe : Nat → α) (pred : α → Bool)
    (interval timeout : Nat) (h : pred (probe 0) = true) :
    pollUntil probe pred interval timeout = .ok (probe 0) 0 := by
  unfold pollUntil
  rw [pollLoop]
  simp [h]

theorem pollUntil_never {α : Type} (probe : Nat → α) (pred : α → Bool)
    (interval timeout : Nat) (hi : 0 < interval)
    (hfail : ∀ t, pred (probe t) = false) :
    pollUntil probe pred interval timeout =
      .timeoutErr (probe (stopElapsed interval timeout)) (stopElapsed interval timeout) := by
  unfold pollUntil
  have hd := Nat.div_add_mod timeout interval
  have hm := Nat.mod_lt timeout hi
  have := pollLoop_never probe pred interval timeout hi hfail (timeout / interval + 1) 0
    (by omega)
    (by rw [Nat.succ_mul]; rw [Nat.mul_comm] at hd; omega)
  simpa using this

theorem keyMatches_eq_targets (t1 t2 k : List Char)
    (h1 : keyMatches t1 k = true) (h2 : keyMatches t2 k = true) : t1 = t2 := by
  unfold keyMatches at h1 h2
  have e1 := of_decide_eq_true h1
  have e2 := of_decide_eq_true h2
  rw [← e1, ← e2]

/-- How one decoded object member changes the struct fields: a field is
kept unless the member's key matches it, and set to the member's decoded
value when it does. -/
theorem applyMember_spec (l l2 : JSONLog) (k : List Char) (v : JValue)
    (h : applyMember l k v = some l2) :
    (keyMatches klog k = false → l2.Log = l.Log) ∧
    (keyMatches kstream k = false → l2.Stream = l.Stream) ∧
    (keyMatches ktime k = false → l2.Created = l.Created) ∧
    (∀ s, keyMatches klog k = true → v = .jstr s → l2.Log = s) ∧
    (∀ s, keyMatches kstream k = true → v = .jstr s → l2.Stream = s) ∧
    (∀ s ts, keyMatches ktime k = true → v = .jstr s →
      parseRFC3339Nano s = some ts → l2.Created = ts) := by
  unfold applyMember at h
  by_cases h1 : keyMatches klog k = true
  · rw [if_pos h1] at h
    cases v with
    | jstr s0 =>
      simp only [Option.some.injEq] at h
      subst h
      refine ⟨fun hf => absurd h1 (by simp [hf]), fun _ => rfl, fun _ => rfl, ?_, ?_, ?_⟩
      · intro s _ hv
        exact JValue.jstr.inj hv
      · intro s h2 _
        exact absurd (keyMatches_eq_targets klog kstream k h1 h2) (by decide)
      · intro s ts h3 _ _
        exact absurd (keyMatches_eq_targets klog ktime k h1 h3) (by decide)
    | jnull =>
      simp only [Option.some.injEq] at h
      subst h
      exact ⟨fun _ => rfl, fun _ => rfl, fun _ => rfl,
        fun s _ hv => absurd hv (by intro hc; exact JValue.noConfusion hc),
        fun s _ hv => absurd hv (by intro hc; exact JValue.noConfusion hc),
        fun s ts _ hv _ => absurd hv (by intro hc; exact JValue.noConfusion hc)⟩
    | jbool b => exact absurd h (by simp)
    | jnum => exact absurd h (by simp)
    | jarr es => exact absurd h (by simp)
    | jobj ms => exact absurd h (by simp)
  · rw [if_neg h1] at h
    have h1f : keyMatches klog k = false := by simpa using h1
    by_cases h2 : keyMatches kstream k = true
    · rw [if_pos h2] at h
      cases v with
      | jstr s0 =>
        simp only [Option.some.injEq] at h
        subst h
        refine ⟨fun _ => rfl, fun hf => absurd h2 (by simp [hf]), fun _ => rfl, ?_, ?_, ?_⟩
        · intro s hc _
          exact absurd hc (by simp [h1f])
        · intro s _ hv
          exact JValue.jstr.inj hv
        · intro s ts h3 _ _
          exact absurd (keyMatches_eq_targets kstream ktime k h2 h3) (by decide)
      | jnull =>
        simp only [Option.some.injEq] at h
        subst h
        exact ⟨fun _ => rfl, fun _ => rfl, fun _ => rfl,
          fun s _ hv => absurd hv (by intro hc; exact JValue.noConfusion hc),
          fun s _ hv => absurd hv (by intro hc; exact JValue.noConfusion hc),
          fun s ts _ hv _ => absurd hv (by intro hc; exact JValue.noConfusion hc)⟩
      | jbool b => exact absurd h (by simp)
      | jnum => exact absurd h (by simp)
      | jarr es => exact absurd h (by simp)
      | jobj ms => exact absurd h (by simp)
    · rw [if_neg h2] at h
      have h2f : keyMatches kstream k = false := by simpa using h2
      by_cases h3 : keyMatches ktime k = true
      · rw [if_pos h3] at h
        cases v with
        | jstr s0 =>
          cases hp : parseRFC3339Nano s0 with
          | none =>
            simp only [hp] at h
            exact absurd h (by simp)
          | some ts0 =>
            simp only [hp, Option.some.injEq] at h
            subst h
            refine ⟨fun _ => rfl, fun _ => rfl, fun hf => absurd h3 (by simp [hf]), ?_, ?_, ?_⟩
            · intro s hc _
              exact absurd hc (by simp [h1f])
            · intro s hc _
              exact absurd hc (by simp [h2f])
            · intro s ts _ hv hts
              have hs : s0 = s := JValue.jstr.inj hv
              subst hs
              rw [hp] at hts
              exact Option.some.inj hts
        | jnull =>
          simp only [Option.some.injEq] at h
          subst h
          exact ⟨fun _ => rfl, fun _ => rfl, fun _ => rfl,
            fun s _ hv => absurd hv (by intro hc; exact JValue.noConfusion hc),
            fun s _ hv => absurd hv (by intro hc; exact JValue.noConfusion hc),
            fun s ts _ hv _ => absurd hv (by intro hc; exact JValue.noConfusion hc)⟩
        | jbool b => exact absurd h (by simp)
        | jnum => exact absurd h (by simp)
        | jarr es => exact absurd h (by simp)
        | jobj ms => exact absurd h (by simp)
      · rw [if_neg h3] at h
        have h3f : keyMatches ktime k = false := by simpa using h3
        have hkeep : l2.Log = l.Log ∧ l2.Stream = l.Stream ∧ l2.Created = l.Created := by
          by_cases h4 : keyMatches kattrs k = true
          · rw [if_pos h4] at h
            cases v with
            | jobj ms =>
              cases hp : parseAttrs ms with
              | none =>
                simp only [hp] at h
                exact absurd h (by simp)
              | some attrs =>
                simp only [hp, Option.some.injEq] at h
                subst h
                exact ⟨rfl, rfl, rfl⟩
            | jnull =>
              simp only [Option.some.injEq] at h
              subst h
              exact ⟨rfl, rfl, rfl⟩
            | jbool b => exact absurd h (by simp)
            | jnum => exact absurd h (by simp)
            | jarr es => exact absurd h (by simp)
            | jstr s => exact absurd h (by simp)
          · rw [if_neg h4] at h
            simp only [Option.some.injEq] at h
            subst h
            exact ⟨rfl, rfl, rfl⟩
        exact ⟨fun _ => hkeep.1, fun _ => hkeep.2.1, fun _ => hkeep.2.2,
          fun s hc _ => absurd hc (by simp [h1f]),
          fun s hc _ => absurd hc (by simp [h2f]),
          fun s ts hc _ _ => absurd hc (by simp [h3f])⟩

/-- Decompose a `lookupLast` miss on a cons cell. -/
theorem lookupLast_cons_none (target k : List Char) (v : JValue)
    (rest : List (List Char × JValue))
    (h : lookupLast target ((k, v) :: rest) = none) :
    lookupLast target rest = none ∧ keyMatches target k = false := by
  unfold lookupLast at h
  cases hl : lookupLast target rest with
  | some v2 => rw [hl] at h; exact absurd h (by simp)
  | none =>
    rw [hl] at h
    refine ⟨rfl, ?_⟩
    by_cases hk : keyMatches target k = true
    · rw [if_pos hk] at h; exact absurd h (by simp)
    · simpa using hk

/-- Decoding an object member by member leaves a field at its previous
value when no member's key matches it. -/
theorem foldMembers_keep :
    ∀ (ms : List (List Char × JValue)) (l l2 : JSONLog),
      foldMembers l ms = some l2 →
      (lookupLast klog ms = none → l2.Log = l.Log) ∧
      (lookupLast kstream ms = none → l2.Stream = l.Stream) ∧
      (lookupLast ktime ms = none → l2.Created = l.Created) := by
  intro ms
  induction ms with
  | nil =>
    intro l l2 h
    simp only [foldMembers, Option.some.injEq] at h
    subst h
    exact ⟨fun _ => rfl, fun _ => rfl, fun _ => rfl⟩
  | cons kv rest ih =>
    intro l l2 h
    obtain ⟨k, v⟩ := kv
    unfold foldMembers at h
    cases ha : applyMember l k v with
    | none => rw [ha] at h; exact absurd h (by simp)
    | some l1 =>
      rw [ha] at h
      have hs := applyMember_spec l l1 k v ha
      have hr := ih l1 l2 h
      refine ⟨?_, ?_, ?_⟩
      · intro hN
        obtain ⟨hrest, hk⟩ := lookupLast_cons_none klog k v rest hN
        rw [hr.1 hrest, hs.1 hk]
      · intro hN
        obtain ⟨hrest, hk⟩ := lookupLast_cons_none kstream k v rest hN
        rw [hr.2.1 hrest, hs.2.1 hk]
      · intro hN
        obtain ⟨hrest, hk⟩ := lookupLast_cons_none ktime k v rest hN
        rw [hr.2.2 hrest, hs.2.2.1 hk]

/-- Decoding an object member by member gives each field the value of
the last member whose key matches it (later occurrences override
earlier ones). -/
theorem foldMembers_last :
    ∀ (ms : List (List Char × JValue)) (l l2 : JSONLog),
      foldMembers l ms = some l2 →
      (∀ s, lookupLast klog ms = some (.jstr s) → l2.Log = s) ∧
      (∀ s, lookupLast kstream ms = some (.jstr s) → l2.Stream = s) ∧
      (∀ s ts, lookupLast ktime ms = some (.jstr s) →
        parseRFC3339Nano s = some ts → l2.Created = ts) := by
  intro ms
  induction ms with
  | nil =>
    intro l l2 h
    refine ⟨?_, ?_, ?_⟩
    · intro s hN; exact absurd hN (by simp [lookupLast])
    · intro s hN; exact absurd hN (by simp [lookupLast])
    · intro s ts hN _; exact absurd hN (by simp [lookupLast])
  | cons kv rest ih =>
    intro l l2 h
    obtain ⟨k, v⟩ := kv
    unfold foldMembers at h
    cases ha : applyMember l k v with
    | none => rw [ha] at h; exact absurd h (by simp)
    | some l1 =>
      rw [ha] at h
      have hs := applyMember_spec l l1 k v ha
      have hr := ih l1 l2 h
      have hkeep := foldMembers_keep rest l1 l2 h
      refine ⟨?_, ?_, ?_⟩
      · intro s hN
        unfold lookupLast at hN
        cases hl : lookupLast klog rest with
        | some v2 =>
          rw [hl] at hN
          simp only [Option.some.injEq] at hN
          exact hr.1 s (hN ▸ hl)
        | none =>
          rw [hl] at hN
          by_cases hk : keyMatches klog k = true
          · rw [if_pos hk] at hN
            simp only [Option.some.injEq] at hN
            rw [hkeep.1 hl]
            exact hs.2.2.2.1 s hk hN
          · rw [if_neg hk] at hN
            exact absurd hN (by simp)
      · intro s hN
        unfold lookupLast at hN
        cases hl : lookupLast kstream rest with
        | some v2 =>
          rw [hl] at hN
          simp only [Option.some.injEq] at hN
          exact hr.2.1 s (hN ▸ hl)
        | none =>
          rw [hl] at hN
          by_cases hk : keyMatches kstream k = true
          · rw [if_pos hk] at hN
            simp only [Option.some.injEq] at hN
            rw [hkeep.2.1 hl]
            exact hs.2.2.2.2.1 s hk hN
          · rw [if_neg hk] at hN
            exact absurd hN (by simp)
      · intro s ts hN hts
        unfold lookupLast at hN
        cases hl : lookupLast ktime rest with
        | some v2 =>
          rw [hl] at hN
          simp only [Option.some.injEq] at hN
          exact hr.2.2 s ts (hN ▸ hl) hts
        | none =>
          rw [hl] at hN
          by_cases hk : keyMatches ktime k = true
          · rw [if_pos hk] at hN
            simp only [Option.some.injEq] at hN
            rw [hkeep.2.2 hl]
            exact hs.2.2.2.2.2 s ts hk hN hts
          · rw [if_neg hk] at hN
            exact absurd hN (by simp)

/-- A well-typed member never makes the member-wise decode fail. -/
theorem applyMember_wellTyped (l : JSONLog) (k : List Char) (v : JValue)
    (hw : wellTypedMember (k, v) = true) : ∃ l2, applyMember l k v = some l2 := by
  unfold wellTypedMember at hw
  unfold applyMember
  by_cases h1 : keyMatches klog k = true
  · rw [if_pos h1] at hw ⊢
    cases v with
    | jstr s => exact ⟨_, rfl⟩
    | jnull => exact ⟨_, rfl⟩
    | jbool b => exact absurd hw (by simp [isStrOrNull])
    | jnum => exact absurd hw (by simp [isStrOrNull])
    | jarr es => exact absurd hw (by simp [isStrOrNull])
    | jobj ms => exact absurd hw (by simp [isStrOrNull])
  · rw [if_neg h1] at hw ⊢
    by_cases h2 : keyMatches kstream k = true
    · rw [if_pos h2] at hw ⊢
      cases v with
      | jstr s => exact ⟨_, rfl⟩
      | jnull => exact ⟨_, rfl⟩
      | jbool b => exact absurd hw (by simp [isStrOrNull])
      | jnum => exact absurd hw (by simp [isStrOrNull])
      | jarr es => exact absurd hw (by simp [isStrOrNull])
      | jobj ms => exact absurd hw (by simp [isStrOrNull])
    · rw [if_neg h2] at hw ⊢
      by_cases h3 : keyMatches ktime k = true
      · rw [if_pos h3] at hw ⊢
        cases v with
        | jstr s =>
          cases hp : parseRFC3339Nano s with
          | none =>
            simp only [hp, Option.isSome_none] at hw
            exact Bool.noConfusion hw
          | some ts =>
            simp only [hp]
            exact ⟨_, rfl⟩
        | jnull => exact ⟨_, rfl⟩
        | jbool b => exact absurd hw (by simp)
        | jnum => exact absurd hw (by simp)
        | jarr es => exact absurd hw (by simp)
        | jobj ms => exact absurd hw (by simp)
      · rw [if_neg h3] at hw ⊢
        by_cases h4 : keyMatches kattrs k = true
        · rw [if_pos h4] at hw ⊢
          cases v with
          | jobj ms =>
            cases hp : parseAttrs ms with
            | none =>
              simp only [hp, Option.isSome_none] at hw
              exact Bool.noConfusion hw
            | some attrs =>
              simp only [hp]
              exact ⟨_, rfl⟩
          | jnull => exact ⟨_, rfl⟩
          | jbool b => exact absurd hw (by simp)
          | jnum => exact absurd hw (by simp)
          | jarr es => exact absurd hw (by simp)
          | jstr s => exact absurd hw (by simp)
        · rw [if_neg h4]
          exact ⟨_, rfl⟩

/-- An object all of whose members are well typed decodes successfully. -/
theorem foldMembers_wellTyped :
    ∀ (ms : List (List Char × JValue)) (l : JSONLog),
      (∀ kv ∈ ms, wellTypedMember kv = true) →
      ∃ l2, foldMembers l ms = some l2 := by
  intro ms
  induction ms with
  | nil => intro l _; exact ⟨l, rfl⟩
  | cons kv rest ih =>
    intro l hw
    obtain ⟨k, v⟩ := kv
    obtain ⟨l1, ha⟩ := applyMember_wellTyped l k v (hw (k, v) (by simp))
    obtain ⟨l2, hf⟩ := ih l1 (fun kv2 hm => hw kv2 (List.mem_cons_of_mem _ hm))
    refine ⟨l2, ?_⟩
    unfold foldMembers
    rw [ha]
    exact hf

/-! ## Claim theorems -/

/-- Claim C1 (code bug): the claim says that a line not starting with
`{` and having fewer than 4 whitespace-separated segments fails with
`MalformedRecord` and never with an out-of-bounds access.  The code
guards with `len(log) < 4` — the character count of the line, not the
segment count — so the line `2016-10-06T00:17:09.669794202Z stdout F`
(3 segments, valid timestamp, not JSON) reaches `logMessage[3]` and
panics with an index-out-of-range error instead. -/
theorem crilog_guard_bug :
    (goSplitN ' ' ("2016-10-06T00:17:09.669794202Z stdout F".data) 4).length < 4
    ∧ List.isPrefixOf ['{'] ("2016-10-06T00:17:09.669794202Z stdout F".data) = false
    ∧ parseCRILog ("2016-10-06T00:17:09.669794202Z stdout F".data)
        = .error .indexOutOfRange :=
  ⟨by decide, by rfl, by rfl⟩

/-- Claim C2 (counterexample): a line whose first non-space character
is `{` but which starts with a space is routed to the CRI decoder (and
fails there), not to the JSON decoder (which would succeed on it). -/
theorem decode_first_nonspace_cex :
    firstNonSpaceChar [' ', '{', '}'] = some '{'
    ∧ decodeLogLine [' ', '{', '}'] = parseCRILog [' ', '{', '}']
    ∧ decodeLogLine [' ', '{', '}'] = .error .malformedRecord
    ∧ parseDockerJSONLog [' ', '{', '}'] = .ok ⟨zeroTime, [], []⟩
    ∧ decodeLogLine [' ', '{', '}'] ≠ parseDockerJSONLog [' ', '{', '}'] :=
  ⟨by rfl, by rfl, by rfl, by rfl, by decide⟩

/-- Claim C2 (amended): a line is decoded as encoding A (Docker JSON)
if and only if its first character — not its first non-space
character — is `{`; every other line goes to the CRI decoder. -/
theorem decode_routing_first_char (line : List Char) :
    decodeLogLine line =
      (if line.head? = some '{' then parseDockerJSONLog line else parseCRILog line) := by
  cases line with
  | nil => simp [decodeLogLine, List.isPrefixOf]
  | cons c rest =>
    by_cases hc : c = '{'
    · simp [decodeLogLine, List.isPrefixOf, hc]
    · have hcc : ('{' == c) = false := by
        rw [beq_eq_false_iff_ne]
        exact fun h => hc h.symm
      have hni : List.isPrefixOf ['{'] (c :: rest) = false := by
        simp [List.isPrefixOf, hcc]
      have hh : ¬ ((c :: rest).head? = some '{') := by
        intro h
        exact hc (Option.some.inj h)
      simp [decodeLogLine, hni, hh, hc]

/-- Claim C3: for every valid encoding-B line — four segments, the
first three space-free, the timestamp parseable — the decoded payload
is exactly the content after the third space (embedded spaces
preserved, the tag segment ignored) with one newline appended, and the
stream is the second segment. -/
theorem crilog_payload_after_third_space (t s g c : List Char) (ts : Timestamp)
    (ht : ' ' ∉ t) (hs : ' ' ∉ s) (hg : ' ' ∉ g)
    (hts : parseRFC3339Nano t = some ts) :
    parseCRILog (t ++ ' ' :: (s ++ ' ' :: (g ++ ' ' :: c))) = .ok ⟨ts, s, c ++ ['\n']⟩ :=
  parseCRILog_decomp t s g c ts ht hs hg hts

/-- Witness for C3 at the spec's example line
`2016-10-06T00:17:09.669794202Z stdout F hello world`. -/
theorem crilog_payload_witness :
    parseCRILog ("2016-10-06T00:17:09.669794202Z".data ++ ' ' ::
        ("stdout".data ++ ' ' :: ("F".data ++ ' ' :: "hello world".data)))
      = .ok ⟨tsB, "stdout".data, "hello world".data ++ ['\n']⟩ :=
  crilog_payload_after_third_space _ _ _ _ _ (by decide) (by decide) (by decide) (by rfl)

/-- Claim C4 (counterexample): a record produced by the decoder whose
stream is neither of the two declared values — refuting "every
LogRecord's stream is one of exactly two values". -/
theorem crilog_stream_third_value_cex :
    parseCRILog ("2016-10-06T00:17:09.669794202Z".data ++ ' ' ::
        ("custom".data ++ ' ' :: ("F".data ++ ' ' :: "hi".data)))
      = .ok ⟨tsB, "custom".data, "hi".data ++ ['\n']⟩
    ∧ ("custom".data : streamType) ≠ stdoutType
    ∧ ("custom".data : streamType) ≠ stderrType :=
  ⟨by rfl, by decide, by decide⟩

/-- Claim C4 (amended): the decoder casts the raw stream token into
the stream field verbatim; an unrecognized marker (neither `stdout`
nor `stderr`) is preserved as given and causes no parse-time error. -/
theorem crilog_stream_preserved (t s g c : List Char) (ts : Timestamp)
    (ht : ' ' ∉ t) (hs : ' ' ∉ s) (hg : ' ' ∉ g)
    (hts : parseRFC3339Nano t = some ts)
    (_hu1 : s ≠ stdoutType) (_hu2 : s ≠ stderrType) :
    parseCRILog (t ++ ' ' :: (s ++ ' ' :: (g ++ ' ' :: c))) = .ok ⟨ts, s, c ++ ['\n']⟩ :=
  parseCRILog_decomp t s g c ts ht hs hg hts

/-- Witness for C4 with the unrecognized stream marker `bogus`. -/
theorem crilog_stream_preserved_witness :
    parseCRILog ("2016-10-06T00:17:09.669794202Z".data ++ ' ' ::
        ("bogus".data ++ ' ' :: ("F".data ++ ' ' :: "x".data)))
      = .ok ⟨tsB, "bogus".data, "x".data ++ ['\n']⟩ :=
  crilog_stream_preserved _ _ _ _ _ (by decide) (by decide) (by decide) (by rfl)
    (by decide) (by decide)

/-- Claim C5 (counterexample): decoding does not fail exactly on lines
lacking the three-named-field object shape.  `{}` lacks all three
fields yet decodes successfully (fields default to zero values), while
a line carrying all three fields well-formed still fails when another
member (`attrs`) is ill-typed. -/
theorem dockerlog_shape_cex :
    threeFieldObjectShape ['{', '}'] = false
    ∧ parseDockerJSONLog ['{', '}'] = .ok ⟨zeroTime, [], []⟩
    ∧ threeFieldObjectShape exLineAttrsBad = true
    ∧ parseDockerJSONLog exLineAttrsBad = .error .malformedRecord :=
  ⟨by rfl, by rfl, by rfl, by rfl⟩

/-- Claim C5 (amended): an encoding-A line fails with MalformedRecord
exactly when Go's JSON unmarshal of the line into the record struct
fails; in particular any line parsing as an object all of whose members
are well typed for the struct (the three named fields string-valued
with a parseable time, attrs a string-valued object, unknown members
arbitrary — none of them required) decodes successfully. -/
theorem dockerlog_welltyped_ok (cs : List Char) (ms : List (List Char × JValue))
    (hp : jsonParseTop cs = some (.jobj ms))
    (hw : ∀ kv ∈ ms, wellTypedMember kv = true) :
    (parseDockerJSONLog cs).isOk = true := by
  obtain ⟨l2, hf⟩ := foldMembers_wellTyped ms emptyJSONLog hw
  unfold parseDockerJSONLog jsonUnmarshalJSONLog
  rw [hp]
  simp only [hf]
  rfl

/-- Witness for C5 at `exLineA`. -/
theorem dockerlog_welltyped_witness : (parseDockerJSONLog exLineA).isOk = true :=
  dockerlog_welltyped_ok exLineA exMembersA (by rfl) (by decide)

/-- Claim C6: for every valid encoding-A line, the decoded record's
stream equals the JSON `stream` field, its payload equals the JSON
`log` field verbatim (no newline appended), and its timestamp equals
the parsed JSON creation-time field. -/
theorem dockerlog_fields_verbatim (cs lg st tm : List Char) (ts : Timestamp) (l : JSONLog)
    (hf : jsonFields cs = some (lg, st, tm))
    (hts : parseRFC3339Nano tm = some ts)
    (hu : jsonUnmarshalJSONLog cs = some l) :
    parseDockerJSONLog cs = .ok ⟨ts, st, lg⟩ := by
  unfold jsonFields at hf
  cases hp : jsonParseTop cs with
  | none => simp [hp] at hf
  | some v =>
    cases v with
    | jnull => simp [hp] at hf
    | jbool b => simp [hp] at hf
    | jnum => simp [hp] at hf
    | jarr es => simp [hp] at hf
    | jstr s => simp [hp] at hf
    | jobj ms =>
      simp only [hp] at hf
      unfold jsonUnmarshalJSONLog at hu
      simp only [hp] at hu
      have hlast := foldMembers_last ms emptyJSONLog l hu
      cases h1 : lookupLast klog ms with
      | none => simp [h1] at hf
      | some v1 =>
        cases h2 : lookupLast kstream ms with
        | none => simp only [h1, h2] at hf; cases v1 <;> simp at hf
        | some v2 =>
          cases h3 : lookupLast ktime ms with
          | none => simp only [h1, h2, h3] at hf; cases v1 <;> cases v2 <;> simp at hf
          | some v3 =>
            simp only [h1, h2, h3] at hf
            cases v1 <;> cases v2 <;> cases v3 <;> simp at hf
            obtain ⟨e1, e2, e3⟩ := hf
            subst e1; subst e2; subst e3
            have hLog := hlast.1 _ h1
            have hStream := hlast.2.1 _ h2
            have hCreated := hlast.2.2 _ ts h3 hts
            unfold parseDockerJSONLog jsonUnmarshalJSONLog
            simp only [hp, hu]
            rw [hLog, hStream, hCreated]

/-- Witness for C6 at `exLineA`. -/
theorem dockerlog_fields_witness :
    parseDockerJSONLog exLineA = .ok ⟨tsA, "stdout".data, "hello World\n".data⟩ :=
  dockerlog_fields_verbatim exLineA ("hello World\n".data) ("stdout".data)
    ("2016-10-20T18:39:20.57606443Z".data) tsA
    ⟨"hello World\n".data, "stdout".data, tsA, []⟩ (by rfl) (by rfl) (by rfl)

/-- Claim C7: the verifier's containment check returns true exactly
when some record of the sequence has exactly the queried payload and
exactly the queried stream (full equality on both fields); on the
example sequence, the exact payload matches and the
trailing-newline-stripped payload does not (no substring matching). -/
theorem verifyLogContents_exact_match :
    (∀ (msgs : List logMessage) (log : List Char) (stream : streamType),
      verifyLogContents msgs log stream = true ↔
        ∃ m ∈ msgs, m.log = log ∧ m.stream = stream)
    ∧ verifyLogContents [⟨zeroTime, stdoutType, "hello\n".data⟩] ("hello\n".data) stdoutType
        = true
    ∧ verifyLogContents [⟨zeroTime, stdoutType, "hello\n".data⟩] ("hello".data) stdoutType
        = false :=
  ⟨verifyLogContents_iff, by decide, by decide⟩

/-- Claim C8: reading a log file decodes the scanned lines in file
order with no re-sorting and no caching — the result is a pure
function of the content, the i-th record is the decode of the i-th
line, and decoding later lines does not disturb earlier records. -/
theorem parseLogLine_file_order :
    (∀ content, parseLogLine content = parseLogLines (scanLines content))
    ∧ ∀ (lines : List (List Char)) (msgs : List logMessage),
        parseLogLines lines = .ok msgs →
        msgs.length = lines.length ∧
        ∀ i (h1 : i < lines.length) (h2 : i < msgs.length),
          decodeLogLine (lines.get ⟨i, h1⟩) = .ok (msgs.get ⟨i, h2⟩) :=
  ⟨fun _ => rfl, parseLogLines_spec⟩

/-- Witness for C8 on a two-line file (one Docker line, one CRI line). -/
theorem parseLogLine_file_order_witness :
    ([exMsgA, exMsgB].length = exLines.length)
    ∧ decodeLogLine (exLines.get ⟨1, by decide⟩) = .ok ([exMsgA, exMsgB].get ⟨1, by decide⟩) := by
  have h := parseLogLine_file_order.2 exLines [exMsgA, exMsgB] (by rfl)
  exact ⟨h.1, h.2 1 (by decide) (by decide)⟩

/-- Claim C9 (modelled from the spec; the polling primitive is gomega's,
outside this repository's sources): with a positive interval, a probe
already satisfying the predicate returns immediately with no sleeping,
and a probe never satisfying it yields a timeout carrying the last
observed value at an elapsed time between `timeout` and
`timeout + interval`. -/
theorem pollUntil_bounds {α : Type} (probe : Nat → α) (pred : α → Bool)
    (interval timeout : Nat) (hi : 0 < interval) :
    (pred (probe 0) = true → pollUntil probe pred interval timeout = .ok (probe 0) 0)
    ∧ ((∀ t, pred (probe t) = false) →
        pollUntil probe pred interval timeout =
          .timeoutErr (probe (stopElapsed interval timeout)) (stopElapsed interval timeout)
        ∧ timeout ≤ stopElapsed interval timeout
        ∧ stopElapsed interval timeout ≤ timeout + interval) :=
  ⟨fun h => pollUntil_first_probe probe pred interval timeout h,
   fun hfail => ⟨pollUntil_never probe pred interval timeout hi hfail,
     (stopElapsed_bounds interval timeout hi).1,
     (stopElapsed_bounds interval timeout hi).2⟩⟩

/-- Witness for C9 with interval 1 and timeout 2. -/
theorem pollUntil_bounds_witness :
    pollUntil (fun _ => (5 : Nat)) (fun v => v == 5) 1 2 = .ok 5 0
    ∧ pollUntil (fun _ => (0 : Nat)) (fun v => v == 5) 1 2 = .timeoutErr 0 (stopElapsed 1 2)
    ∧ 2 ≤ stopElapsed 1 2 ∧ stopElapsed 1 2 ≤ 2 + 1 := by
  have h1 := (pollUntil_bounds (fun _ => (5 : Nat)) (fun v => v == 5) 1 2 (by decide)).1 (by rfl)
  have h2 := (pollUntil_bounds (fun _ => (0 : Nat)) (fun v => v == 5) 1 2 (by decide)).2
    (fun t => by rfl)
  exact ⟨h1, h2.1, h2.2.1, h2.2.2⟩

/-- Claim C10 (counterexample): on content using a `\r\n` line ending,
the decoder is handed the segment with the trailing carriage return
stripped — not the maximal newline-free segment itself. -/
theorem scanLines_cr_cex :
    scanLines ['a', '\r', '\n', 'b'] = [['a'], ['b']]
    ∧ scanLines ['a', '\r', '\n', 'b'] ≠ [['a', '\r'], ['b']] :=
  ⟨by rfl, by decide⟩

/-- Claim C10 (amended): for carriage-return-free content, the file is
split into maximal newline-free segments — the terminating newline is
stripped, a final segment lacking a trailing newline still becomes a
line, and empty content yields no lines — and a successful read yields
exactly one record per line.  (A trailing `\r` of a line is also
stripped, which is what the counterexample forces us to add.) -/
theorem scanLines_line_splitting (p rest : List Char) (hn : '\n' ∉ p) (hr : '\r' ∉ p) :
    scanLines ([] : List Char) = []
    ∧ (p ≠ [] → scanLines p = [p])
    ∧ scanLines (p ++ '\n' :: rest) = p :: scanLines rest
    ∧ ∀ msgs, parseLogLine (p ++ '\n' :: rest) = .ok msgs →
        msgs.length = (scanLines (p ++ '\n' :: rest)).length := by
  refine ⟨rfl, fun hne => scanLines_single p hne hn hr,
    scanLines_cons_line p rest hn hr, ?_⟩
  intro msgs h
  exact (parseLogLines_spec (scanLines (p ++ '\n' :: rest)) msgs h).1

/-- Witness for C10 on the content `ab\ncd`. -/
theorem scanLines_line_splitting_witness :
    scanLines (['a', 'b'] ++ '\n' :: ['c', 'd']) = ['a', 'b'] :: scanLines ['c', 'd'] :=
  (scanLines_line_splitting ['a', 'b'] ['c', 'd'] (by decide) (by decide)).2.2.1

end CriTools
